import Mathlib

/-!
Shallow embedding of `include/tm/string_view.hpp` (class `TM::StringView`).

A `StringView` holds a raw pointer to an external owning string type
(`TM::String`, called "Buffer" by the specification), an offset and a
length.  The owning string type itself is not part of the sources; its
contract (length, checked byte access, raw pointer from an offset, append)
is modelled from the specification, §6.

Modelling conventions:
* the heap is a function `Mem : Nat → Buffer` from pointer values
  (addresses) to buffer contents; pointer equality in the source
  (`m_string == other.m_string`) is equality of addresses;
* a byte is a `Nat` (the source compares bytes after casting to
  `unsigned char`, so buffer contents are byte values `0..255`; none of
  the results below needs the upper bound);
* `size_t` values are modelled as `Nat`; machine-width wraparound is
  outside the model (all quantities of interest are bounded by buffer
  sizes);
* an aborting `assert` (and a null-pointer dereference, which in the
  source is undefined behaviour) is modelled by an `Option` result being
  `none`.
-/

namespace TM

abbrev Byte := Nat

/-- The external owning string type ("Buffer"): its content as a byte list. -/
abbrev Buffer := List Byte

/-- The heap: pointer values to buffer contents. -/
abbrev Mem := Nat → Buffer

/-- Modelled from the spec: the Buffer contract `length() -> size` (§6);
the number of content bytes of the owning string. -/
def Buffer.len (b : Buffer) : Nat := b.length

/-- Modelled from the spec: the Buffer contract
`byte_at(checked_index) -> byte`, fatal on out-of-range (§6); `String::at`. -/
def Buffer.byte_at (b : Buffer) (i : Nat) : Option Byte := b[i]?

/-- Modelled from the spec: the Buffer contract
`raw_pointer_from(offset) -> readable byte sequence`, no implied
terminator (§6); `String::c_str() + offset` seen as the byte sequence
it points at. -/
def Buffer.raw_from (b : Buffer) (off : Nat) : List Byte := b.drop off

/-- Modelled from the spec: unchecked indexed byte access
(`String::operator[]`, §4.1 "unchecked"); out-of-range access is
undefined behaviour in the source, the model returns `0` there (never
exercised by the theorems, whose uses are in bounds). -/
def Buffer.ubyte (b : Buffer) (i : Nat) : Byte := b.getD i 0

/-- Modelled from the spec: the Buffer contract `append(bytes, count)`
(§6) — extends the content with `count` bytes read from the given
sequence. -/
def Buffer.append_bytes (b : Buffer) (src : List Byte) (count : Nat) : Buffer :=
  b ++ src.take count

/-- Modelled from the spec: `String::clone` — an independently owned copy
with the same content (§4.1 Conversion); at the content level, identity. -/
def Buffer.cloneBuf (b : Buffer) : Buffer := b

/-- Modelled from the spec: constructing an owned string from a raw byte
sequence and a count (`String { ptr, length }`) — copies exactly `count`
bytes. -/
def Buffer.fromRaw (src : List Byte) (count : Nat) : Buffer := src.take count

/-- The view: `m_string` is the possibly-null pointer to the backing
buffer, `m_offset` and `m_length` delimit the visible range
(`string_view.hpp`, fields at lines 440-442, with their default
initializers giving the default constructor). -/
structure StringView where
  m_string : Option Nat := none
  m_offset : Nat := 0
  m_length : Nat := 0
deriving DecidableEq

namespace StringView

/-- `StringView()` — the default (absent) view. -/
def nullView : StringView := ⟨none, 0, 0⟩

/-- `StringView(const String*)` — whole-buffer view. -/
def mkWhole (mem : Mem) (s : Nat) : StringView :=
  ⟨some s, 0, (mem s).len⟩

/-- `StringView(const String*, size_t offset)` — offset view;
`assert(offset <= string->length())` aborts (`none`) otherwise. -/
def mkOffset (mem : Mem) (s off : Nat) : Option StringView :=
  if off ≤ (mem s).len then some ⟨some s, off, (mem s).len - off⟩ else none

/-- `StringView(const String*, size_t offset, size_t length)` —
offset+length view; asserts `offset <= string->length()` and then
`length <= string->length() - offset`, aborting (`none`) otherwise. -/
def mkOffsetLen (mem : Mem) (s off len : Nat) : Option StringView :=
  if off ≤ (mem s).len then
    if len ≤ (mem s).len - off then some ⟨some s, off, len⟩ else none
  else none

/-- The construction invariant (spec §3): a present view's range lies
inside its buffer; an absent view has offset and length `0`. -/
def valid (mem : Mem) (v : StringView) : Bool :=
  match v.m_string with
  | none => v.m_offset == 0 && v.m_length == 0
  | some s => decide (v.m_offset + v.m_length ≤ (mem s).len)

/-- The visible bytes of a view: `m_length` bytes of the backing buffer
starting at `m_offset`; `[]` for an absent view.  (Spec-level
observation used to state the theorems.) -/
def bytes (mem : Mem) (v : StringView) : List Byte :=
  match v.m_string with
  | none => []
  | some s => ((mem s).raw_from v.m_offset).take v.m_length

/-- `StringView::operator[]` — `assert(m_string)` then unchecked buffer
access at `m_offset + index`. -/
def idxOp (mem : Mem) (v : StringView) (i : Nat) : Option Byte :=
  match v.m_string with
  | none => none
  | some s => some ((mem s).ubyte (v.m_offset + i))

/-- `StringView::at` — `assert(m_string)` then checked buffer access at
`m_offset + index` (fatal when out of the buffer's range). -/
def at' (mem : Mem) (v : StringView) (i : Nat) : Option Byte :=
  match v.m_string with
  | none => none
  | some s => (mem s).byte_at (v.m_offset + i)

/-- `StringView::operator==(const StringView&)` (lines 231-239): length
check, zero-length short-circuit, pointer+offset short-circuit, then
`memcmp` over `m_length` bytes from each view's start.  Dereferencing a
null `m_string` in the `memcmp` is undefined behaviour, modelled `none`. -/
def viewEq (mem : Mem) (a b : StringView) : Option Bool :=
  if a.m_length ≠ b.m_length then some false
  else if a.m_length = 0 then some true
  else if a.m_string = b.m_string ∧ a.m_offset = b.m_offset then some true
  else
    match a.m_string, b.m_string with
    | some s1, some s2 =>
        some (decide (((mem s1).raw_from a.m_offset).take a.m_length
          = ((mem s2).raw_from b.m_offset).take b.m_length))
    | _, _ => none

/-- `StringView::operator==(const char*)` (lines 166-177).  The C-string
operand is `none` for a null pointer, otherwise the list of its bytes
before the NUL terminator (hence containing no zero byte), so `strlen`
is its length.  `strlen` on a null pointer is undefined behaviour,
modelled `none`. -/
def cstrEq (mem : Mem) (v : StringView) (other : Option (List Byte)) : Option Bool :=
  match other with
  | none => if v.m_string = none then some true else none
  | some cs =>
    if v.m_string = none then
      if cs.length = 0 then some true else some false
    else if v.m_length ≠ cs.length then some false
    else
      match v.m_string with
      | none => none
      | some s =>
          some (decide (((mem s).raw_from v.m_offset).take v.m_length = cs))

/-- `StringView::operator==(const char)` (lines 196-198):
`m_length == 1 && (*m_string)[m_offset] == other`; the conjunction
short-circuits, so the buffer is dereferenced only when `m_length == 1`. -/
def charEq (mem : Mem) (v : StringView) (c : Byte) : Option Bool :=
  if v.m_length = 1 then
    match v.m_string with
    | none => none
    | some s => some (decide ((mem s).ubyte v.m_offset = c))
  else some false

/-- The loop of `StringView::cmp(const StringView&)` (lines 289-301):
compares bytes from position `i` up to `min` of the lengths through the
views' `operator[]`, then compares lengths. -/
def cmpFrom (mem : Mem) (a b : StringView) (i : Nat) : Option Int :=
  if h : i < min a.m_length b.m_length then
    match a.idxOp mem i, b.idxOp mem i with
    | some c1, some c2 =>
      if c1 < c2 then some (-1)
      else if c2 < c1 then some 1
      else cmpFrom mem a b (i + 1)
    | _, _ => none
  else if a.m_length = b.m_length then some 0
  else if a.m_length < b.m_length then some (-1)
  else some 1
termination_by min a.m_length b.m_length - i

/-- `StringView::cmp(const StringView&)` (lines 283-302): zero-length
receiver short-circuit, then the byte loop from position `0`. -/
def cmp (mem : Mem) (a b : StringView) : Option Int :=
  if a.m_length = 0 then
    if b.m_length = 0 then some 0 else some (-1)
  else cmpFrom mem a b 0

/-- `StringView::to_string` (lines 337-341): empty owned string for an
absent view, else an owned copy of `m_length` bytes from
`c_str() + m_offset`. -/
def to_string (mem : Mem) (v : StringView) : Buffer :=
  match v.m_string with
  | none => []
  | some s => Buffer.fromRaw ((mem s).raw_from v.m_offset) v.m_length

/-- `StringView::operator String` (lines 353-355): returns `to_string()`. -/
def stringConv (mem : Mem) (v : StringView) : Buffer := to_string mem v

/-- `StringView::clone` (line 367): returns `to_string()`. -/
def clone (mem : Mem) (v : StringView) : Buffer := to_string mem v

/-- `StringView::dangerous_pointer_to_underlying_data` (lines 421-424):
`assert(m_string)` then the raw byte sequence from `m_offset` on. -/
def dangerous_pointer_to_underlying_data (mem : Mem) (v : StringView) :
    Option (List Byte) :=
  match v.m_string with
  | none => none
  | some s => some ((mem s).raw_from v.m_offset)

end StringView

/-- `operator+(const String&, const StringView&)` (lines 457-461):
clone the left string, then append `rhs.size()` bytes read from
`rhs.dangerous_pointer_to_underlying_data()`. -/
def plusOp (mem : Mem) (lhs : Buffer) (rhs : StringView) : Option Buffer :=
  match rhs.dangerous_pointer_to_underlying_data mem with
  | none => none
  | some p => some ((Buffer.cloneBuf lhs).append_bytes p rhs.m_length)

/-- `operator+=(String&, const StringView&)` (lines 474-477): append
`rhs.size()` bytes read from `rhs.dangerous_pointer_to_underlying_data()`
to the left string in place; the result is the left string's new value. -/
def plusEqOp (mem : Mem) (lhs : Buffer) (rhs : StringView) : Option Buffer :=
  match rhs.dangerous_pointer_to_underlying_data mem with
  | none => none
  | some p => some (lhs.append_bytes p rhs.m_length)

/-- Lexicographic three-way comparison over byte values with the
shortest-common-prefix rule, written from the specification's words
(§4.1 "Three-way comparison"): bytes are compared pairwise, the first
difference decides; else the shorter list is less. -/
def lexCmp : List Byte → List Byte → Int
  | [], [] => 0
  | [], _ :: _ => -1
  | _ :: _, [] => 1
  | a :: as, b :: bs =>
    if a < b then -1 else if b < a then 1 else lexCmp as bs

/-- A concrete heap used by the witness theorems: address 0 holds "abc",
1 holds "xxxbar", 2 holds "cdefg", every other address holds "bar". -/
def memW : Mem := fun a =>
  if a = 0 then [97, 98, 99]
  else if a = 1 then [120, 120, 120, 98, 97, 114]
  else if a = 2 then [99, 100, 101, 102, 103]
  else [98, 97, 114]

namespace StringView

lemma bytes_length_of_valid {mem : Mem} {v : StringView}
    (h : v.valid mem = true) : (v.bytes mem).length = v.m_length := by
  cases hs : v.m_string with
  | none =>
    simp only [valid, hs, Bool.and_eq_true, beq_iff_eq] at h
    simp [bytes, hs, h.2]
  | some s =>
    simp only [valid, hs, decide_eq_true_eq, Buffer.len] at h
    simp only [bytes, hs, Buffer.raw_from, List.length_take, List.length_drop]
    omega

lemma m_string_isSome_of_valid {mem : Mem} {v : StringView}
    (hv : v.valid mem = true) (hl : v.m_length ≠ 0) :
    ∃ s, v.m_string = some s := by
  cases hs : v.m_string with
  | none =>
    simp only [valid, hs, Bool.and_eq_true, beq_iff_eq] at hv
    exact absurd hv.2 hl
  | some s => exact ⟨s, rfl⟩

end StringView

lemma lexCmp_self : ∀ l : List Byte, lexCmp l l = 0
  | [] => rfl
  | a :: as => by simp [lexCmp, lexCmp_self as]

lemma lexCmp_antisymm : ∀ l1 l2 : List Byte, lexCmp l1 l2 = -lexCmp l2 l1
  | [], [] => rfl
  | [], _ :: _ => rfl
  | _ :: _, [] => rfl
  | a :: as, b :: bs => by
    rcases lt_trichotomy a b with h | h | h
    · simp [lexCmp, h, asymm h, h.ne, h.ne']
    · subst h
      simp [lexCmp, lexCmp_antisymm as bs]
    · simp [lexCmp, h, asymm h, h.ne, h.ne']

lemma getD_eq_getElem_of_lt (L : List Byte) (i : Nat) (h : i < L.length) :
    L.getD i 0 = L[i] := by
  rw [List.getD_eq_getElem?_getD, List.getElem?_eq_getElem h, Option.getD_some]

lemma slice_drop (L : List Byte) (off len i : Nat) :
    ((L.drop off).take len).drop i = (L.drop (off + i)).take (len - i) := by
  rw [List.drop_take, List.drop_drop]

lemma slice_cons (L : List Byte) (off len i : Nat)
    (h1 : i < len) (h2 : off + len ≤ L.length) :
    ((L.drop off).take len).drop i
      = L.getD (off + i) 0 :: ((L.drop off).take len).drop (i + 1) := by
  have hoi : off + i < L.length := by omega
  rw [slice_drop, slice_drop, List.drop_eq_getElem_cons hoi]
  have hk : len - i = (len - (i + 1)) + 1 := by omega
  rw [hk, List.take_succ_cons, getD_eq_getElem_of_lt L (off + i) hoi]
  rfl

lemma valid_range {mem : Mem} {v : StringView} {s : Nat}
    (hv : v.valid mem = true) (hs : v.m_string = some s) :
    v.m_offset + v.m_length ≤ (mem s).length := by
  simpa only [StringView.valid, hs, decide_eq_true_eq, Buffer.len] using hv

lemma cmpFrom_eq_lexCmp (mem : Mem) (a b : StringView)
    (ha : a.valid mem = true) (hb : b.valid mem = true)
    (i : Nat) (hi : i ≤ min a.m_length b.m_length) :
    StringView.cmpFrom mem a b i
      = some (lexCmp ((a.bytes mem).drop i) ((b.bytes mem).drop i)) := by
  by_cases h : i < min a.m_length b.m_length
  · obtain ⟨sa, hsa⟩ := a.m_string_isSome_of_valid ha (by omega)
    obtain ⟨sb, hsb⟩ := b.m_string_isSome_of_valid hb (by omega)
    have hva := valid_range ha hsa
    have hvb := valid_range hb hsb
    have hA : (a.bytes mem).drop i
        = (mem sa).getD (a.m_offset + i) 0 :: (a.bytes mem).drop (i + 1) := by
      simp only [StringView.bytes, hsa, Buffer.raw_from]
      exact slice_cons _ _ _ _ (by omega) (by omega)
    have hB : (b.bytes mem).drop i
        = (mem sb).getD (b.m_offset + i) 0 :: (b.bytes mem).drop (i + 1) := by
      simp only [StringView.bytes, hsb, Buffer.raw_from]
      exact slice_cons _ _ _ _ (by omega) (by omega)
    have IH := cmpFrom_eq_lexCmp mem a b ha hb (i + 1) (by omega)
    unfold StringView.cmpFrom
    rw [dif_pos h]
    simp only [StringView.idxOp, hsa, hsb, Buffer.ubyte]
    rw [hA, hB]
    simp only [lexCmp]
    split_ifs
    · rfl
    · rfl
    · exact IH
  · have hla : (a.bytes mem).length = a.m_length := a.bytes_length_of_valid ha
    have hlb : (b.bytes mem).length = b.m_length := b.bytes_length_of_valid hb
    unfold StringView.cmpFrom
    rw [dif_neg h]
    rcases lt_trichotomy a.m_length b.m_length with hlt | heq | hgt
    · have hA : (a.bytes mem).drop i = [] := List.drop_eq_nil_of_le (by omega)
      have hBne : (b.bytes mem).drop i ≠ [] := by
        have hlen : ((b.bytes mem).drop i).length = b.m_length - i := by
          simp [hlb]
        intro hnil
        rw [hnil] at hlen
        simp at hlen
        omega
      obtain ⟨c, rest, hB⟩ := List.exists_cons_of_ne_nil hBne
      rw [hA, hB]
      simp [lexCmp, hlt, hlt.ne]
    · have hA : (a.bytes mem).drop i = [] := List.drop_eq_nil_of_le (by omega)
      have hB : (b.bytes mem).drop i = [] := List.drop_eq_nil_of_le (by omega)
      rw [hA, hB]
      simp [lexCmp, heq]
    · have hB : (b.bytes mem).drop i = [] := List.drop_eq_nil_of_le (by omega)
      have hAne : (a.bytes mem).drop i ≠ [] := by
        have hlen : ((a.bytes mem).drop i).length = a.m_length - i := by
          simp [hla]
        intro hnil
        rw [hnil] at hlen
        simp at hlen
        omega
      obtain ⟨c, rest, hA⟩ := List.exists_cons_of_ne_nil hAne
      rw [hA, hB]
      simp [lexCmp, hgt.ne', asymm hgt]
termination_by min a.m_length b.m_length - i

lemma cmp_eq_lexCmp (mem : Mem) (a b : StringView)
    (ha : a.valid mem = true) (hb : b.valid mem = true) :
    StringView.cmp mem a b = some (lexCmp (a.bytes mem) (b.bytes mem)) := by
  unfold StringView.cmp
  by_cases h0 : a.m_length = 0
  · have hA : a.bytes mem = [] :=
      List.length_eq_zero.mp (by rw [a.bytes_length_of_valid ha, h0])
    by_cases hb0 : b.m_length = 0
    · have hB : b.bytes mem = [] :=
        List.length_eq_zero.mp (by rw [b.bytes_length_of_valid hb, hb0])
      simp [h0, hb0, hA, hB, lexCmp]
    · have hBne : b.bytes mem ≠ [] := by
        intro hB
        apply hb0
        rw [← b.bytes_length_of_valid hb, hB]
        rfl
      obtain ⟨c, rest, hB⟩ := List.exists_cons_of_ne_nil hBne
      simp [h0, hb0, hA, hB, lexCmp]
  · have h := cmpFrom_eq_lexCmp mem a b ha hb 0 (by omega)
    simpa [h0] using h

/-- C4: constructing a view from a buffer with `offset > buffer.length()`
aborts, as does `length > buffer.length() - offset`; within bounds,
construction never aborts and stores exactly the given offset and length
(the offset-only form stores `length = buffer.length() - offset`). -/
theorem C4_construction_bounds (mem : Mem) (s off len : Nat) :
    (StringView.mkOffset mem s off = none ↔ (mem s).len < off) ∧
    (StringView.mkOffsetLen mem s off len = none ↔
      ((mem s).len < off ∨ (mem s).len - off < len)) ∧
    (∀ v, StringView.mkOffset mem s off = some v →
      v.m_string = some s ∧ v.m_offset = off ∧ v.m_length = (mem s).len - off) ∧
    (∀ v, StringView.mkOffsetLen mem s off len = some v →
      v.m_string = some s ∧ v.m_offset = off ∧ v.m_length = len) := by
  refine ⟨?_, ?_, ?_, ?_⟩
  · by_cases h1 : off ≤ (mem s).len
    · simp [StringView.mkOffset, h1]
    · simp [StringView.mkOffset, h1]
      omega
  · by_cases h1 : off ≤ (mem s).len
    · by_cases h2 : len ≤ (mem s).len - off
      · simp [StringView.mkOffsetLen, h1, h2]
      · simp [StringView.mkOffsetLen, h1, h2]
        omega
    · simp [StringView.mkOffsetLen, h1]
      omega
  · intro v hv
    by_cases h1 : off ≤ (mem s).len
    · simp only [StringView.mkOffset, if_pos h1, Option.some.injEq] at hv
      subst hv
      exact ⟨rfl, rfl, rfl⟩
    · simp [StringView.mkOffset, if_neg h1] at hv
  · intro v hv
    by_cases h1 : off ≤ (mem s).len
    · by_cases h2 : len ≤ (mem s).len - off
      · simp only [StringView.mkOffsetLen, if_pos h1, if_pos h2,
          Option.some.injEq] at hv
        subst hv
        exact ⟨rfl, rfl, rfl⟩
      · simp [StringView.mkOffsetLen, if_pos h1, if_neg h2] at hv
    · simp [StringView.mkOffsetLen, if_neg h1] at hv

/-- Witness for C4 on the buffer "abc" (length 3): offset 4 aborts,
offset 0 length 4 aborts, offset 1 succeeds storing offset 1, length 2. -/
theorem C4_construction_bounds_witness :
    StringView.mkOffset memW 0 4 = none ∧
    StringView.mkOffsetLen memW 0 0 4 = none ∧
    ((⟨some 0, 1, 2⟩ : StringView).m_string = some 0 ∧
      (⟨some 0, 1, 2⟩ : StringView).m_offset = 1 ∧
      (⟨some 0, 1, 2⟩ : StringView).m_length = 2) :=
  ⟨(C4_construction_bounds memW 0 4 0).1.mpr (by decide),
   (C4_construction_bounds memW 0 0 4).2.1.mpr (by decide),
   (C4_construction_bounds memW 0 1 0).2.2.1 ⟨some 0, 1, 2⟩ (by decide)⟩

/-- C6: `to_string`, the conversion operator to `String`, and `clone`
agree; each produces an owned string holding exactly the view's visible
bytes (`m_length` bytes from `m_offset`), and an absent view yields the
empty owned string. -/
theorem C6_conversions_agree (mem : Mem) (v : StringView) :
    v.stringConv mem = v.to_string mem ∧
    v.clone mem = v.to_string mem ∧
    v.to_string mem = v.bytes mem ∧
    (v.m_string = none → v.to_string mem = []) ∧
    (v.valid mem = true → (v.to_string mem).length = v.m_length) := by
  refine ⟨rfl, rfl, ?_, ?_, ?_⟩
  · cases hs : v.m_string <;>
      simp [StringView.to_string, StringView.bytes, Buffer.fromRaw, hs]
  · intro hs; simp [StringView.to_string, hs]
  · intro hv
    have h1 : v.to_string mem = v.bytes mem := by
      cases hs : v.m_string <;>
        simp [StringView.to_string, StringView.bytes, Buffer.fromRaw, hs]
    rw [h1, StringView.bytes_length_of_valid hv]

/-- Witness for C6 on the view of "def" inside "cdefg". -/
theorem C6_conversions_agree_witness :
    StringView.valid memW ⟨some 2, 1, 3⟩ = true ∧
    StringView.to_string memW ⟨some 2, 1, 3⟩
      = StringView.bytes memW ⟨some 2, 1, 3⟩ ∧
    (StringView.to_string memW ⟨some 2, 1, 3⟩).length = 3 :=
  ⟨by decide,
   (C6_conversions_agree memW ⟨some 2, 1, 3⟩).2.2.1,
   (C6_conversions_agree memW ⟨some 2, 1, 3⟩).2.2.2.2 (by decide)⟩

/-- C7: for a present view, `operator+` yields the left string's bytes
followed by the view's visible bytes, `operator+=` updates the left
string to the same value, the visible bytes number exactly `m_length`
when the view is valid, and the result depends on the view only through
its visible bytes (independence from the source buffer). -/
theorem C7_concat_appends_bytes (mem : Mem) (lhs : Buffer) (v : StringView)
    (s : Nat) (hs : v.m_string = some s) (hv : v.valid mem = true) :
    plusOp mem lhs v = some (lhs ++ v.bytes mem) ∧
    plusEqOp mem lhs v = some (lhs ++ v.bytes mem) ∧
    (v.bytes mem).length = v.m_length ∧
    (∀ (mem2 : Mem) (w : StringView) (s2 : Nat), w.m_string = some s2 →
      w.bytes mem2 = v.bytes mem → plusOp mem2 lhs w = plusOp mem lhs v) := by
  have key : ∀ (m : Mem) (u : StringView) (su : Nat), u.m_string = some su →
      plusOp m lhs u = some (lhs ++ u.bytes m) := by
    intro m u su hsu
    simp [plusOp, StringView.dangerous_pointer_to_underlying_data, hsu,
      Buffer.append_bytes, Buffer.cloneBuf, StringView.bytes, Buffer.raw_from]
  refine ⟨key mem v s hs, ?_, StringView.bytes_length_of_valid hv, ?_⟩
  · simp [plusEqOp, StringView.dangerous_pointer_to_underlying_data, hs,
      Buffer.append_bytes, StringView.bytes, Buffer.raw_from]
  · intro mem2 w s2 hw hbw
    rw [key mem2 w s2 hw, key mem v s hs, hbw]

/-- Witness for C7: "abc" + the "def" slice of "cdefg" gives "abcdef",
and the "bar" slice of "xxxbar" appended the same way equals appending
the whole-buffer "bar" view. -/
theorem C7_concat_appends_bytes_witness :
    plusOp memW [97, 98, 99] ⟨some 2, 1, 3⟩
      = some [97, 98, 99, 100, 101, 102] ∧
    plusEqOp memW [97, 98, 99] ⟨some 2, 1, 3⟩
      = some [97, 98, 99, 100, 101, 102] ∧
    plusOp memW [97, 98, 99] ⟨some 1, 3, 3⟩
      = plusOp memW [97, 98, 99] ⟨some 3, 0, 3⟩ := by
  have h := C7_concat_appends_bytes memW [97, 98, 99] ⟨some 2, 1, 3⟩ 2
    rfl (by decide)
  have h2 := C7_concat_appends_bytes memW [97, 98, 99] ⟨some 3, 0, 3⟩ 3
    rfl (by decide)
  refine ⟨?_, ?_, ?_⟩
  · rw [h.1]; rfl
  · rw [h.2.1]; rfl
  · exact h2.2.2.2 memW ⟨some 1, 3, 3⟩ 1 rfl (by decide)

/-- C8: equality of a view with a single character holds iff the view's
visible bytes are exactly that one character; in particular any view
whose length is not 1 (the absent view included) compares false. -/
theorem C8_charEq_single_byte (mem : Mem) (v : StringView) (c : Byte)
    (hv : v.valid mem = true) :
    v.charEq mem c = some (decide (v.bytes mem = [c])) := by
  by_cases h1 : v.m_length = 1
  · obtain ⟨s, hs⟩ := v.m_string_isSome_of_valid hv (by omega)
    simp only [StringView.valid, hs, decide_eq_true_eq, Buffer.len] at hv
    have hoff : v.m_offset < (mem s).length := by omega
    have hb : v.bytes mem = [(mem s).ubyte v.m_offset] := by
      have hd := List.drop_eq_getElem_cons hoff
      simp only [StringView.bytes, hs, Buffer.raw_from, h1, hd,
        List.take_succ_cons, List.take_zero, Buffer.ubyte,
        List.getD_eq_getElem?_getD, List.getElem?_eq_getElem hoff,
        Option.getD_some]
    rw [hb]
    simp [StringView.charEq, h1, hs]
  · have hlen : (v.bytes mem).length ≠ 1 := by
      rw [StringView.bytes_length_of_valid hv]; exact h1
    have hne : v.bytes mem ≠ [c] := by
      intro h; apply hlen; rw [h]; rfl
    simp [StringView.charEq, h1, hne]

/-- Witness for C8 on the one-byte slice "b" of "abc" and on the absent
view. -/
theorem C8_charEq_single_byte_witness :
    StringView.charEq memW ⟨some 0, 1, 1⟩ 98
      = some (decide (StringView.bytes memW ⟨some 0, 1, 1⟩ = [98])) ∧
    StringView.charEq memW .nullView 98
      = some (decide (StringView.bytes memW .nullView = [98])) :=
  ⟨C8_charEq_single_byte memW ⟨some 0, 1, 1⟩ 98 (by decide),
   C8_charEq_single_byte memW .nullView 98 (by decide)⟩

/-- C9: for a present view, `at(i)` aborts exactly when `offset + i`
falls outside the backing buffer, succeeds for every in-buffer position
returning the buffer's byte at `offset + i` — also when `i` is at or
past the view's own length. -/
theorem C9_at_checks_buffer_bounds (mem : Mem) (v : StringView) (s : Nat)
    (i : Nat) (hs : v.m_string = some s) :
    (v.at' mem i = none ↔ (mem s).len ≤ v.m_offset + i) ∧
    (v.m_offset + i < (mem s).len →
      v.at' mem i = some ((mem s).ubyte (v.m_offset + i))) ∧
    (v.m_length ≤ i → v.m_offset + i < (mem s).len →
      (v.at' mem i).isSome = true) := by
  have hat : v.at' mem i = (mem s)[v.m_offset + i]? := by
    simp [StringView.at', hs, Buffer.byte_at]
  refine ⟨?_, ?_, ?_⟩
  · rw [hat, List.getElem?_eq_none_iff]; exact Iff.rfl
  · intro h
    rw [hat, List.getElem?_eq_getElem (by exact h), Buffer.ubyte,
      List.getD_eq_getElem?_getD, List.getElem?_eq_getElem (by exact h)]
    rfl
  · intro _ h
    rw [hat, List.getElem?_eq_getElem (by exact h)]
    rfl

/-- Witness for C9 on the "def" slice of "cdefg": index 3 is past the
view's length 3 yet inside the buffer, so it succeeds and returns the
buffer byte "g"; index 4 leaves the buffer and aborts. -/
theorem C9_at_checks_buffer_bounds_witness :
    StringView.at' memW ⟨some 2, 1, 3⟩ 3 = some 103 ∧
    StringView.at' memW ⟨some 2, 1, 3⟩ 4 = none := by
  have h3 := C9_at_checks_buffer_bounds memW ⟨some 2, 1, 3⟩ 2 3 rfl
  have h4 := C9_at_checks_buffer_bounds memW ⟨some 2, 1, 3⟩ 2 4 rfl
  exact ⟨by rw [h3.2.1 (by decide)]; rfl, h4.1.mpr (by decide)⟩

/-- C10: concatenating an absent view is fatal, not a no-op:
`dangerous_pointer_to_underlying_data` asserts a present buffer, so both
helpers abort on an absent view of length 0 instead of appending zero
bytes. -/
theorem C10_concat_absent_fatal (mem : Mem) (lhs : Buffer) (v : StringView)
    (h : v.m_string = none) :
    v.dangerous_pointer_to_underlying_data mem = none ∧
    plusOp mem lhs v = none ∧ plusEqOp mem lhs v = none := by
  simp [StringView.dangerous_pointer_to_underlying_data, plusOp, plusEqOp, h]

/-- Witness for C10 on the default view. -/
theorem C10_concat_absent_fatal_witness :
    StringView.dangerous_pointer_to_underlying_data memW .nullView = none ∧
    plusOp memW [97, 98, 99] .nullView = none ∧
    plusEqOp memW [97, 98, 99] .nullView = none :=
  C10_concat_absent_fatal memW [97, 98, 99] .nullView rfl

/-- C1: equality of two valid views holds iff their visible bytes are
identical (which subsumes the length check, the zero-length case, the
same-buffer-same-offset short-circuit, and makes views over different
buffers with identical visible bytes compare equal). -/
theorem C1_viewEq_bytes (mem : Mem) (a b : StringView)
    (ha : a.valid mem = true) (hb : b.valid mem = true) :
    StringView.viewEq mem a b = some (decide (a.bytes mem = b.bytes mem)) := by
  unfold StringView.viewEq
  split_ifs with hne h0 hsc
  · have hab : a.bytes mem ≠ b.bytes mem := by
      intro h
      exact hne (by
        rw [← a.bytes_length_of_valid ha, ← b.bytes_length_of_valid hb, h])
    simp [hab]
  · have hl : a.m_length = b.m_length := not_ne_iff.mp hne
    have hA : a.bytes mem = [] :=
      List.length_eq_zero.mp (by rw [a.bytes_length_of_valid ha, h0])
    have hB : b.bytes mem = [] :=
      List.length_eq_zero.mp (by rw [b.bytes_length_of_valid hb, ← hl, h0])
    simp [hA, hB]
  · obtain ⟨sa, hsa⟩ := a.m_string_isSome_of_valid ha h0
    have hl : a.m_length = b.m_length := not_ne_iff.mp hne
    obtain ⟨h1, h2⟩ := hsc
    have hbb : a.bytes mem = b.bytes mem := by
      simp only [StringView.bytes, hsa, ← h1, ← h2, ← hl]
    simp [hbb]
  · have hl : a.m_length = b.m_length := not_ne_iff.mp hne
    have hb0 : b.m_length ≠ 0 := fun hz => h0 (by rw [hl, hz])
    obtain ⟨sa, hsa⟩ := a.m_string_isSome_of_valid ha h0
    obtain ⟨sb, hsb⟩ := b.m_string_isSome_of_valid hb hb0
    simp only [hsa, hsb]
    have hA : a.bytes mem = ((mem sa).raw_from a.m_offset).take a.m_length := by
      simp [StringView.bytes, hsa]
    have hB : b.bytes mem = ((mem sb).raw_from b.m_offset).take b.m_length := by
      simp [StringView.bytes, hsb]
    rw [hA, hB, hl]

/-- Witness for C1: the "bar" slice of "xxxbar" and the whole-buffer
view of a distinct buffer "bar" — different buffers, identical visible
bytes. -/
theorem C1_viewEq_bytes_witness :
    StringView.valid memW ⟨some 1, 3, 3⟩ = true ∧
    StringView.viewEq memW ⟨some 1, 3, 3⟩ ⟨some 3, 0, 3⟩
      = some (decide (StringView.bytes memW ⟨some 1, 3, 3⟩
          = StringView.bytes memW ⟨some 3, 0, 3⟩)) :=
  ⟨by decide,
   C1_viewEq_bytes memW ⟨some 1, 3, 3⟩ ⟨some 3, 0, 3⟩ (by decide) (by decide)⟩

/-- C2: on valid views `cmp` computes the lexicographic three-way
comparison of the visible bytes with the shortest-common-prefix rule;
in particular a zero-length view compares equal to a zero-length view
and less than any nonempty view. -/
theorem C2_cmp_lexicographic (mem : Mem) (a b : StringView)
    (ha : a.valid mem = true) (hb : b.valid mem = true) :
    StringView.cmp mem a b = some (lexCmp (a.bytes mem) (b.bytes mem)) ∧
    (a.m_length = 0 → b.m_length = 0 → StringView.cmp mem a b = some 0) ∧
    (a.m_length = 0 → b.m_length ≠ 0 → StringView.cmp mem a b = some (-1)) := by
  refine ⟨cmp_eq_lexCmp mem a b ha hb, ?_, ?_⟩
  · intro h1 h2
    simp [StringView.cmp, h1, h2]
  · intro h1 h2
    simp [StringView.cmp, h1, h2]

/-- Witness for C2: whole "abc" against the "bar" slice of "xxxbar",
and the absent view against a nonempty view. -/
theorem C2_cmp_lexicographic_witness :
    StringView.valid memW ⟨some 0, 0, 3⟩ = true ∧
    StringView.cmp memW ⟨some 0, 0, 3⟩ ⟨some 1, 3, 3⟩
      = some (lexCmp (StringView.bytes memW ⟨some 0, 0, 3⟩)
          (StringView.bytes memW ⟨some 1, 3, 3⟩)) ∧
    StringView.cmp memW .nullView ⟨some 0, 0, 3⟩ = some (-1) :=
  ⟨by decide,
   (C2_cmp_lexicographic memW ⟨some 0, 0, 3⟩ ⟨some 1, 3, 3⟩
     (by decide) (by decide)).1,
   (C2_cmp_lexicographic memW .nullView ⟨some 0, 0, 3⟩
     (by decide) (by decide)).2.2 rfl (by decide)⟩

/-- C3: on valid views `cmp` is antisymmetric
(`cmp a b = -(cmp b a)`) and reflexively zero (`cmp a a = 0`). -/
theorem C3_cmp_antisymm_refl (mem : Mem) (a b : StringView)
    (ha : a.valid mem = true) (hb : b.valid mem = true) :
    StringView.cmp mem a b
      = (StringView.cmp mem b a).map (fun x => -x) ∧
    StringView.cmp mem a a = some 0 := by
  constructor
  · rw [cmp_eq_lexCmp mem a b ha hb, cmp_eq_lexCmp mem b a hb ha,
      lexCmp_antisymm (a.bytes mem) (b.bytes mem)]
    rfl
  · rw [cmp_eq_lexCmp mem a a ha ha, lexCmp_self]

/-- Witness for C3 on "abc" and the "bar" slice of "xxxbar". -/
theorem C3_cmp_antisymm_refl_witness :
    StringView.cmp memW ⟨some 0, 0, 3⟩ ⟨some 1, 3, 3⟩
      = (StringView.cmp memW ⟨some 1, 3, 3⟩ ⟨some 0, 0, 3⟩).map (fun x => -x) ∧
    StringView.cmp memW ⟨some 0, 0, 3⟩ ⟨some 0, 0, 3⟩ = some 0 :=
  C3_cmp_antisymm_refl memW ⟨some 0, 0, 3⟩ ⟨some 1, 3, 3⟩ (by decide) (by decide)

/-- C5 counterexample: the claim extends the absent/present-length-0
interchangeability to every C-string operand "including the null C
string", but on the null operand a present zero-length (valid) view
reaches `strlen(nullptr)` — undefined behaviour, modelled as an abort —
while the absent view returns true: the two results differ. -/
theorem C5_cstrEq_counterexample :
    StringView.valid memW ⟨some 0, 0, 0⟩ = true ∧
    StringView.cstrEq memW ⟨some 0, 0, 0⟩ none = none ∧
    StringView.cstrEq memW StringView.nullView none = some true ∧
    StringView.cstrEq memW ⟨some 0, 0, 0⟩ none
      ≠ StringView.cstrEq memW StringView.nullView none := by
  decide

/-- C5 (amended): an absent view equals the null and the empty C string;
for every non-null C-string operand the result is defined and true iff
the view's visible bytes equal the operand's bytes — hence a present
zero-length view agrees with the absent view on every non-null operand —
but on the null C-string operand a present view is undefined (modelled
abort) while the absent view returns true. -/
theorem C5_cstrEq_amended (mem : Mem) (v : StringView) (cs : List Byte)
    (hv : v.valid mem = true) :
    StringView.cstrEq mem v (some cs) = some (decide (v.bytes mem = cs)) ∧
    StringView.cstrEq mem StringView.nullView none = some true ∧
    (v.m_string = none → StringView.cstrEq mem v none = some true) ∧
    (v.m_string ≠ none → StringView.cstrEq mem v none = none) := by
  refine ⟨?_, rfl, ?_, ?_⟩
  · rcases hs : v.m_string with _ | s
    · have hA : v.bytes mem = [] := by simp [StringView.bytes, hs]
      rw [hA]
      by_cases hcs : cs = []
      · subst hcs
        simp [StringView.cstrEq, hs]
      · simp [StringView.cstrEq, hs, List.length_eq_zero, hcs, Ne.symm hcs]
    · by_cases hl : v.m_length = cs.length
      · simp [StringView.cstrEq, hs, hl, StringView.bytes, Buffer.raw_from]
      · have hne : v.bytes mem ≠ cs := by
          intro h
          apply hl
          rw [← v.bytes_length_of_valid hv, h]
        simp [StringView.cstrEq, hs, hl, hne]
  · intro h
    simp [StringView.cstrEq, h]
  · intro h
    simp [StringView.cstrEq, h]

/-- Witness for C5 (amended) on a present zero-length view into "abc". -/
theorem C5_cstrEq_amended_witness :
    StringView.valid memW ⟨some 0, 0, 0⟩ = true ∧
    StringView.cstrEq memW ⟨some 0, 0, 0⟩ (some [])
      = some (decide (StringView.bytes memW ⟨some 0, 0, 0⟩ = ([] : List Byte))) ∧
    StringView.cstrEq memW StringView.nullView none = some true ∧
    StringView.cstrEq memW ⟨some 0, 0, 0⟩ none = none := by
  have h := C5_cstrEq_amended memW ⟨some 0, 0, 0⟩ [] (by decide)
  exact ⟨by decide, h.1, h.2.1, h.2.2.2 (by decide)⟩

end TM
